import Mathlib

/-!
# Verification of the jadep-graph dependency-graph engine

Shallow embedding of `src/main.rs`: the import-map data model, the
bounded visited-set traversal `build_dependency_tree`, the DOT
serializer's token escaping, and the two directory scanners
(`traverse_folder` and `traverse_folder_par`).

Conventions of the embedding:
* `DashMap<String, Vec<String>>` becomes an association list
  `List (String × List String)`; `DashMap::get` is first-match lookup,
  `DashMap::insert` replaces the value at the first matching key.
* A Rust `panic!` (a failed `unwrap`) is represented by an explicit
  failure value, never silently discarded.
* The traversal loop of `build_dependency_tree` is written with an
  explicit fuel argument so that it is structurally recursive and hence
  kernel-computable; termination of the Rust loop is then the theorem
  that a concrete, computable amount of fuel always suffices.
-/

namespace Jadep

/-- The type of the shared maps of the program:
`DashMap<String, Vec<String>>` as an association list. -/
abbrev ImportMap := List (String × List String)

/-- Keys of a map, in entry order. -/
def mapKeys (m : ImportMap) : List String := m.map Prod.fst

/-- `DashMap::get`: first-match lookup. -/
def find : ImportMap → String → Option (List String)
  | [], _ => none
  | (k', v) :: rest, k => if k' = k then some v else find rest k

/-- `DashMap::insert`: replace the value at the first matching key, or
append a fresh entry at the end. -/
def insertMap : ImportMap → String → List String → ImportMap
  | [], k, v => [(k, v)]
  | (k', v') :: rest, k, v =>
    if k' = k then (k, v) :: rest else (k', v') :: insertMap rest k v

/-- `tree.entry(package_name.clone()).or_insert(Vec::new())`
(main.rs line 76): insert an empty entry when the key is absent. -/
def entryOrInsert (t : ImportMap) (k : String) : ImportMap :=
  match find t k with
  | some _ => t
  | none => t ++ [(k, [])]

/-- `tree.get_mut(&package_name).unwrap().push(import_value)`
(main.rs lines 80-82).  `none` is the panic of the `unwrap` when the
key is absent. -/
def pushAt : ImportMap → String → String → Option ImportMap
  | [], _, _ => none
  | (k', v) :: rest, k, r =>
    if k' = k then some ((k', v ++ [r]) :: rest)
    else
      match pushAt rest k r with
      | none => none
      | some rest' => some ((k', v) :: rest')

/-- The inner `for import_value in imports.iter()` loop of
`build_dependency_tree` (main.rs lines 79-90): append each reference to
the tree entry of `k` and push `(reference, d + 1)` onto the work
stack.  The stack is a list with its head as the top. -/
def expandRefs (k : String) (d : Nat) :
    List String → ImportMap → List (String × Nat) →
    Option (ImportMap × List (String × Nat))
  | [], t, s => some (t, s)
  | r :: rs, t, s =>
    match pushAt t k r with
    | none => none
    | some t' => expandRefs k d rs t' ((r, d + 1) :: s)

/-- Outcome of the traversal loop: normal completion (with the final
tree and the final visited set, the visited set listing the expanded
identities most-recent first), a panic of the inner `unwrap`, or fuel
exhaustion (an artifact of the embedding, ruled out by
`buildLoopF_no_fuel_exhaustion`). -/
inductive LoopResult where
  | done (t : ImportMap) (visited : List String) : LoopResult
  | panicked : LoopResult
  | outOfFuel : LoopResult
deriving DecidableEq

/-- `true` exactly on the panic outcome. -/
def LoopResult.isPanic : LoopResult → Bool
  | .panicked => true
  | _ => false

/-- The `while let Some((package_name, current_depth)) = stack.pop()`
loop of `build_dependency_tree` (main.rs lines 68-93), with explicit
fuel.  Per iteration: a popped pair whose depth exceeds `maxD` is
discarded; an already-visited identity is discarded; otherwise the
identity is marked visited, given an empty tree entry, and (when it is
a key of `m`) its references are appended to that entry and pushed at
depth `d + 1`. -/
def buildLoopF (m : ImportMap) (maxD : Nat) :
    Nat → List (String × Nat) → List String → ImportMap → LoopResult
  | _, [], visited, t => .done t visited
  | 0, _ :: _, _, _ => .outOfFuel
  | fuel + 1, (k, d) :: stack, visited, t =>
    if d > maxD then buildLoopF m maxD fuel stack visited t
    else if k ∈ visited then buildLoopF m maxD fuel stack visited t
    else
      let visited' := k :: visited
      let t' := entryOrInsert t k
      match find m k with
      | none => buildLoopF m maxD fuel stack visited' t'
      | some refs =>
        match expandRefs k d refs t' stack with
        | none => .panicked
        | some (t'', stack') => buildLoopF m maxD fuel stack' visited' t''

/-- `usize::MAX`: the default depth bound (main.rs line 53). -/
def USIZE_MAX : Nat := 2 ^ 64 - 1

/-- Rust `str::starts_with` on these identifiers: prefix test on the
character sequence. -/
def startsWithStr (s p : String) : Bool := p.data.isPrefixOf s.data

/-- The root-seeding loop of `build_dependency_tree` (main.rs lines
55-66): push `(key, 0)` for every key when no prefix is given, and for
exactly the keys starting with the prefix otherwise.  (The source
writes this as two mutually exclusive conditionals on
`root_class_prefix`.) -/
def initStack (m : ImportMap) (pfx : Option String) : List (String × Nat) :=
  m.foldl
    (fun stack e =>
      match pfx with
      | none => (e.1, 0) :: stack
      | some p => if startsWithStr e.1 p then (e.1, 0) :: stack else stack)
    []

/-- The keys selected as traversal roots. -/
def rootKeys (m : ImportMap) (pfx : Option String) : List String :=
  match pfx with
  | none => mapKeys m
  | some p => (mapKeys m).filter (fun k => startsWithStr k p)

/-- Sum of the reference-list lengths of the entries whose key is not
yet visited; the potential function bounding the remaining stack
pushes of the traversal. -/
def sumRefsUnvisited : ImportMap → List String → Nat
  | [], _ => 0
  | (k, v) :: rest, visited =>
    (if k ∈ visited then 0 else v.length) + sumRefsUnvisited rest visited

/-- `build_dependency_tree` (main.rs lines 43-96).  The fuel
`|stack| + Σ |refs| + 1` provably suffices, so the `outOfFuel` branch
is dead; `none` is the panic of the inner `unwrap`. -/
def build_dependency_tree (m : ImportMap) (pfx : Option String)
    (depth : Option Nat) : Option ImportMap :=
  let maxD := depth.getD USIZE_MAX
  let stack0 := initStack m pfx
  match buildLoopF m maxD (stack0.length + sumRefsUnvisited m [] + 1)
      stack0 [] [] with
  | .done t _ => some t
  | _ => none

/-- The four rank directions of the serializer (main.rs lines 230-240). -/
inductive RankDir where
  | LR | RL | TB | BT
deriving DecidableEq

/-- The `rankdir` header line chosen by the serializer
(main.rs lines 108-113). -/
def rankDirLine : RankDir → String
  | .LR => "  rankdir=LR;\n"
  | .RL => "  rankdir=RL;\n"
  | .TB => "  rankdir=TB;\n"
  | .BT => "  rankdir=BT;\n"

/-- The apostrophe character, the replacement for an embedded quote. -/
def apostrophe : Char := Char.ofNat 39

/-- `.replace('"', "'")` (main.rs lines 132-133): the quote-to-apostrophe
character replacement.  A single-character pattern and single-character
replacement make Rust `str::replace` a character map. -/
def replQuote (c : Char) : Char := if c = '"' then apostrophe else c

/-- `.replace('/', "_")` (main.rs lines 132-133): the separator-to-underscore
character replacement. -/
def replSlash (c : Char) : Char := if c = '/' then '_' else c

/-- The token escaping applied to each identity and reference before an
edge statement is emitted (main.rs lines 132-133): first replace every
quote, then every path separator. -/
def escapeToken (s : String) : String :=
  String.mk ((s.data.map replQuote).map replSlash)

/-- One emitted edge statement
`format!("  \"{}\" -> \"{}\";\n", escaped, escaped)`
(main.rs lines 130-134). -/
def edgeLine (a b : String) : String :=
  "  \"" ++ escapeToken a ++ "\" -> \"" ++ escapeToken b ++ "\";\n"

/-- Recover the source token of an emitted edge line: the characters
strictly between the first pair of quotes. -/
def recoverToken (line : String) : String :=
  String.mk ((((line.data.dropWhile (fun c => c ≠ '"')).drop 1).takeWhile
    (fun c => c ≠ '"')))

/-- `generate_dot_content` (main.rs lines 99-141): fixed header, rank
direction, then one edge statement per reference of each subgraph
entry.  `none` propagates the panic of `build_dependency_tree`. -/
def generate_dot_content (m : ImportMap) (pfx : Option String)
    (depth : Option Nat) (rd : RankDir) : Option String :=
  (build_dependency_tree m pfx depth).map fun tree =>
    "strict digraph G \x7b\n" ++ rankDirLine rd ++
    "  graph [bgcolor=black];\n" ++
    "  graph [label=\"Orthogonal edges\", splines=ortho, nodesep=0.8];\n" ++
    "  edge [color=white];\n" ++
    "  graph[ratio=fill,center=1];\n" ++
    "  node[style=filled, shape=box];\n" ++
    String.join (tree.map fun e => String.join (e.2.map (edgeLine e.1))) ++
    "\x7d"

/-- The synthetic root entry inserted by `main` when a root class
prefix is supplied (main.rs lines 324-334): key the prefix itself,
value every key of the scanned map that starts with the prefix (the
filter runs over the map before the insertion). -/
def insertSyntheticRoot (m : ImportMap) (pfx : String) : ImportMap :=
  insertMap m pfx ((m.map (fun e => e.1)).filter (fun k => startsWithStr k pfx))

/-! ## The filesystem model for the two scanners

A directory tree as seen through the `std::fs` calls the scanners
make.  A file node carries the observable results of those calls: its
extension (`Path::extension`), whether `fs::read_to_string` succeeds,
and what the two regex extractors would yield from its text (the
regexes themselves are external collaborators, out of the core).  A
directory node carries whether `fs::read_dir` succeeds and its entries;
each entry records whether the iterator yields `Ok` for it and whether
`fs::metadata` succeeds on it. -/

mutual
inductive FSTree where
  | file (ext : Option String) (readable : Bool) (pkg : Option String)
      (imps : List String) : FSTree
  | dir (readOk : Bool) (entries : FSEntries) : FSTree
deriving DecidableEq

inductive FSEntries where
  | nil : FSEntries
  | cons (entryOk metaOk : Bool) (node : FSTree) (rest : FSEntries) : FSEntries
deriving DecidableEq
end

/-- `extract_package` (main.rs lines 13-24): `none` when the file read
fails, otherwise the package declaration found by the extractor. -/
def extract_package (readable : Bool) (pkg : Option String) : Option String :=
  if readable then pkg else none

/-- `extract_imports` (main.rs lines 27-40): `none` when the file read
fails, otherwise the list of import declarations in file order. -/
def extract_imports (readable : Bool) (imps : List String) :
    Option (List String) :=
  if readable then some imps else none

/-- Outcome of a scan: the final map, a panic (the `unwrap` on
`fs::metadata`), or fuel exhaustion (an artifact of the sequential
embedding, ruled out by `seqLoop` fuel sufficiency). -/
inductive ScanResult where
  | done (m : ImportMap) : ScanResult
  | panicked : ScanResult
  | outOfFuel : ScanResult
deriving DecidableEq

/-- The body of the sequential scanner over one directory's entries
(main.rs lines 154-180): skip `Err` entries, panic if `fs::metadata`
fails, push directories onto the work stack, and for files apply the
extension filter and insert the extraction result. -/
def seqEntries : FSEntries → List FSTree → ImportMap →
    Option (List FSTree × ImportMap)
  | .nil, stack, acc => some (stack, acc)
  | .cons entryOk metaOk node rest, stack, acc =>
    if entryOk = false then seqEntries rest stack acc
    else if metaOk = false then none
    else
      match node with
      | .dir r es => seqEntries rest (FSTree.dir r es :: stack) acc
      | .file ext readable pkg imps =>
        match ext with
        | none => seqEntries rest stack acc
        | some e =>
          if e ≠ "java" then seqEntries rest stack acc
          else
            match extract_package readable pkg with
            | some name =>
              seqEntries rest stack
                (insertMap acc name ((extract_imports readable imps).getD []))
            | none => seqEntries rest stack acc

/-- The `while let Some(path) = stack.pop()` loop of `traverse_folder`
(main.rs lines 152-182), with explicit fuel.  `fs::read_dir` on a file
path, or on an unreadable directory, fails and the popped element is
skipped. -/
def seqLoop : Nat → List FSTree → ImportMap → ScanResult
  | _, [], acc => .done acc
  | 0, _ :: _, _ => .outOfFuel
  | fuel + 1, t :: stack, acc =>
    match t with
    | .file _ _ _ _ => seqLoop fuel stack acc
    | .dir readOk es =>
      if readOk then
        match seqEntries es stack acc with
        | none => .panicked
        | some (stack', acc') => seqLoop fuel stack' acc'
      else seqLoop fuel stack acc

mutual
/-- Size of a tree, the fuel bound of the sequential scan. -/
def sizeT : FSTree → Nat
  | .file _ _ _ _ => 1
  | .dir _ es => 1 + sizeE es

/-- Size of an entry list. -/
def sizeE : FSEntries → Nat
  | .nil => 0
  | .cons _ _ n rest => 1 + sizeT n + sizeE rest
end

/-- `traverse_folder` (main.rs lines 143-185): scan starting from the
stack `[folder_path]`.  `none` is the panic on a failed `fs::metadata`. -/
def traverse_folder (fs : FSTree) : Option ImportMap :=
  match seqLoop (sizeT fs + 1) [fs] [] with
  | .done m => some m
  | _ => none

mutual
/-- `traverse_folder_par` (main.rs lines 187-221): `fs::read_dir` on
the given path, then a pass over its entries.  An unreadable directory
or a file path yields the empty map.  `none` is the metadata panic. -/
def traverse_folder_par : FSTree → Option ImportMap
  | .file _ _ _ _ => some []
  | .dir readOk es => if readOk then parEntries es [] else some []

/-- The entry pass of the parallel scanner (main.rs lines 195-216):
skip `Err` entries (`flatten`), panic if `fs::metadata` fails, insert
matching files, and for directories recurse and merge every entry of
the child map by insertion. -/
def parEntries : FSEntries → ImportMap → Option ImportMap
  | .nil, acc => some acc
  | .cons entryOk metaOk node rest, acc =>
    if entryOk = false then parEntries rest acc
    else if metaOk = false then none
    else
      match node with
      | .file ext readable pkg imps =>
        match ext with
        | some e =>
          if e = "java" then
            match extract_package readable pkg with
            | some name =>
              parEntries rest
                (insertMap acc name ((extract_imports readable imps).getD []))
            | none => parEntries rest acc
          else parEntries rest acc
        | none => parEntries rest acc
      | .dir r es =>
        match traverse_folder_par (FSTree.dir r es) with
        | none => none
        | some child =>
          parEntries rest (child.foldl (fun a e => insertMap a e.1 e.2) acc)
end

/-! ## Association-list lemmas -/

theorem find_eq_none_iff (m : ImportMap) (k : String) :
    find m k = none ↔ k ∉ mapKeys m := by
  induction m with
  | nil => simp [find, mapKeys]
  | cons e rest ih =>
    obtain ⟨k', v⟩ := e
    by_cases h : k' = k
    · subst h
      simp [find, mapKeys]
    · simp [find, mapKeys, h, Ne.symm h, ih]

theorem find_isSome_iff (m : ImportMap) (k : String) :
    (find m k).isSome = true ↔ k ∈ mapKeys m := by
  rcases h : find m k with _ | v
  · simpa using (find_eq_none_iff m k).mp h
  · simp only [Option.isSome_some, true_iff]
    by_contra hk
    rw [(find_eq_none_iff m k).mpr hk] at h
    cases h

theorem find_mem : ∀ {m : ImportMap} {k : String} {v : List String},
    find m k = some v → (k, v) ∈ m := by
  intro m
  induction m with
  | nil => intro k v h; cases h
  | cons e rest ih =>
    intro k v h
    obtain ⟨k', v'⟩ := e
    by_cases hk : k' = k
    · subst hk
      have hv : v' = v := by simpa [find] using h
      subst hv
      exact List.mem_cons_self _ _
    · simp only [find, if_neg hk] at h
      exact List.mem_cons_of_mem _ (ih h)

theorem mem_find : ∀ {m : ImportMap} {k : String} {v : List String},
    (mapKeys m).Nodup → (k, v) ∈ m → find m k = some v := by
  intro m
  induction m with
  | nil => intro k v _ h; cases h
  | cons e rest ih =>
    intro k v hn h
    obtain ⟨k', v'⟩ := e
    have hn' : k' ∉ List.map Prod.fst rest ∧ (mapKeys rest).Nodup := by
      simpa [mapKeys] using hn
    rcases List.mem_cons.mp h with h1 | h1
    · obtain ⟨rfl, rfl⟩ := Prod.mk.injEq .. ▸ h1
      simp_all [find]
    · have hk : ¬ k' = k := by
        rintro rfl
        exact hn'.1 (List.mem_map_of_mem Prod.fst h1)
      simp only [find, if_neg hk]
      exact ih hn'.2 h1

theorem find_append (a b : ImportMap) (k : String) :
    find (a ++ b) k =
      match find a k with
      | some v => some v
      | none => find b k := by
  induction a with
  | nil => simp [find]
  | cons e rest ih =>
    obtain ⟨k', v⟩ := e
    by_cases h : k' = k <;> simp [find, h, ih]

theorem mapKeys_append (a b : ImportMap) :
    mapKeys (a ++ b) = mapKeys a ++ mapKeys b := by
  simp [mapKeys]

theorem find_entryOrInsert_self (t : ImportMap) (k : String) :
    find (entryOrInsert t k) k = some ((find t k).getD []) := by
  unfold entryOrInsert
  rcases h : find t k with _ | v
  · simp [find_append, h, find]
  · simp [h]

theorem find_entryOrInsert_other (t : ImportMap) (k k' : String)
    (hne : k' ≠ k) : find (entryOrInsert t k) k' = find t k' := by
  unfold entryOrInsert
  rcases h : find t k with _ | v
  · rw [find_append]
    rcases h' : find t k' with _ | v'
    · simp [find, Ne.symm hne]
    · simp
  · rfl

theorem mapKeys_entryOrInsert (t : ImportMap) (k : String) :
    mapKeys (entryOrInsert t k) = if k ∈ mapKeys t then mapKeys t
      else mapKeys t ++ [k] := by
  unfold entryOrInsert
  rcases h : find t k with _ | v
  · have hk := (find_eq_none_iff t k).mp h
    rw [if_neg hk, mapKeys_append]
    simp [mapKeys]
  · have hk : k ∈ mapKeys t := by
      rw [← find_isSome_iff, h]
      rfl
    simp [hk]

theorem pushAt_spec (r : String) :
    ∀ (t : ImportMap) (k : String) (v : List String), find t k = some v →
    ∃ t', pushAt t k r = some t' ∧ find t' k = some (v ++ [r]) ∧
      (∀ k', k' ≠ k → find t' k' = find t k') ∧ mapKeys t' = mapKeys t := by
  intro t
  induction t with
  | nil => intro k v h; cases h
  | cons e rest ih =>
    intro k v h
    obtain ⟨k₀, v₀⟩ := e
    by_cases hk : k₀ = k
    · subst hk
      have hv : v₀ = v := by simpa [find] using h
      subst hv
      refine ⟨(k₀, v₀ ++ [r]) :: rest, by simp [pushAt], by simp [find],
        ?_, by simp [mapKeys]⟩
      intro k' hne
      have h0 : ¬ k₀ = k' := fun hh => hne hh.symm
      simp [find, h0]
    · simp only [find, if_neg hk] at h
      obtain ⟨t', ht', hfind, hother, hkeys⟩ := ih k v h
      refine ⟨(k₀, v₀) :: t', by simp [pushAt, hk, ht'],
        by simp [find, hk, hfind], ?_, by simpa [mapKeys] using hkeys⟩
      intro k' hne
      by_cases h0 : k₀ = k'
      · simp [find, h0]
      · simp [find, h0, hother k' hne]

theorem expandRefs_spec (k : String) (d : Nat) :
    ∀ (rs : List String) (t : ImportMap) (s : List (String × Nat))
      (v : List String), find t k = some v →
    ∃ t' s', expandRefs k d rs t s = some (t', s') ∧
      find t' k = some (v ++ rs) ∧
      (∀ k', k' ≠ k → find t' k' = find t k') ∧
      mapKeys t' = mapKeys t ∧
      (∀ p, p ∈ s' ↔ p ∈ s ∨ ∃ r ∈ rs, p = (r, d + 1)) ∧
      s'.length = rs.length + s.length := by
  intro rs
  induction rs with
  | nil =>
    intro t s v h
    exact ⟨t, s, rfl, by simpa using h, fun _ _ => rfl, rfl, by simp, by simp⟩
  | cons r rs ih =>
    intro t s v h
    obtain ⟨t₁, hpush, hfind₁, hother₁, hkeys₁⟩ := pushAt_spec r t k v h
    obtain ⟨t', s', heq, hfind, hother, hkeys, hstack, hlen⟩ :=
      ih t₁ ((r, d + 1) :: s) (v ++ [r]) hfind₁
    refine ⟨t', s', ?_, ?_, ?_, ?_, ?_, ?_⟩
    · simp [expandRefs, hpush, heq]
    · simpa using hfind
    · intro k' hne
      rw [hother k' hne, hother₁ k' hne]
    · rw [hkeys, hkeys₁]
    · intro p
      rw [hstack p]
      simp only [List.mem_cons]
      constructor
      · rintro (⟨h1 | h1⟩ | ⟨r', hr', rfl⟩)
        · exact Or.inr ⟨r, by simp, h1⟩
        · exact Or.inl h1
        · exact Or.inr ⟨r', by simp [hr'], rfl⟩
      · rintro (h1 | ⟨r', hr', rfl⟩)
        · exact Or.inl (Or.inr h1)
        · rcases hr' with rfl | hr'
          · exact Or.inl (Or.inl rfl)
          · exact Or.inr ⟨r', hr', rfl⟩
    · rw [hlen]
      simp
      omega

/-! ## The potential function of the traversal -/

theorem sumRefsUnvisited_mono (m : ImportMap) (k : String)
    (visited : List String) :
    sumRefsUnvisited m (k :: visited) ≤ sumRefsUnvisited m visited := by
  induction m with
  | nil => exact Nat.le_refl _
  | cons e rest ih =>
    obtain ⟨k₀, v₀⟩ := e
    simp only [sumRefsUnvisited]
    apply Nat.add_le_add _ ih
    by_cases h2 : k₀ ∈ k :: visited
    · simp [h2]
    · have h3 : k₀ ∉ visited := fun hh => h2 (List.mem_cons_of_mem _ hh)
      simp [h2, h3]

theorem sumRefsUnvisited_expand :
    ∀ (m : ImportMap) (k : String) (visited rs : List String),
    k ∉ visited → find m k = some rs →
    sumRefsUnvisited m (k :: visited) + rs.length
      ≤ sumRefsUnvisited m visited := by
  intro m
  induction m with
  | nil => intro k visited rs _ h; cases h
  | cons e rest ih =>
    intro k visited rs hv h
    obtain ⟨k₀, v₀⟩ := e
    by_cases hk : k₀ = k
    · subst hk
      have hrs : v₀ = rs := by simpa [find] using h
      subst hrs
      simp only [sumRefsUnvisited]
      rw [if_pos (List.mem_cons_self _ _), if_neg hv]
      have := sumRefsUnvisited_mono rest k₀ visited
      omega
    · simp only [find, if_neg hk] at h
      have hrec := ih k visited rs hv h
      simp only [sumRefsUnvisited]
      have hmem : (k₀ ∈ k :: visited) ↔ (k₀ ∈ visited) := by
        simp [List.mem_cons, hk]
      by_cases h2 : k₀ ∈ visited
      · rw [if_pos (hmem.mpr h2), if_pos h2]
        omega
      · rw [if_neg (fun hh => h2 (hmem.mp hh)), if_neg h2]
        omega

/-! ## Root seeding -/

theorem initStack_eq (m : ImportMap) (pfx : Option String) :
    initStack m pfx = ((rootKeys m pfx).map (fun k => (k, 0))).reverse := by
  have aux : ∀ (mm : ImportMap) (s : List (String × Nat)),
      List.foldl
        (fun stack e =>
          match pfx with
          | none => (e.1, 0) :: stack
          | some p =>
            if startsWithStr e.1 p then (e.1, 0) :: stack else stack)
        s mm
      = ((rootKeys mm pfx).map (fun k => (k, 0))).reverse ++ s := by
    intro mm
    induction mm with
    | nil =>
      intro s
      rcases pfx with _ | p <;> simp [rootKeys, mapKeys]
    | cons e rest ih =>
      intro s
      rcases pfx with _ | p
      · simp only [List.foldl_cons, ih, rootKeys, mapKeys, List.map_cons,
          List.reverse_cons]
        simp [rootKeys, mapKeys] at ih ⊢
      · by_cases hp : startsWithStr e.1 p
        · simp only [List.foldl_cons, hp, if_true, ih]
          simp [rootKeys, mapKeys, hp] at ih ⊢
        · simp only [List.foldl_cons, hp, if_false, ih]
          simp [rootKeys, mapKeys, hp] at ih ⊢
  simpa using aux m []

theorem initStack_mem (m : ImportMap) (pfx : Option String) (k : String)
    (d : Nat) :
    (k, d) ∈ initStack m pfx ↔ k ∈ rootKeys m pfx ∧ d = 0 := by
  rw [initStack_eq]
  simp only [List.mem_reverse, List.mem_map, Prod.mk.injEq]
  constructor
  · rintro ⟨a, ha, rfl, rfl⟩
    exact ⟨ha, rfl⟩
  · rintro ⟨ha, rfl⟩
    exact ⟨k, ha, rfl, rfl⟩

theorem rootKeys_none (m : ImportMap) : rootKeys m none = mapKeys m := rfl

theorem mem_rootKeys_some (m : ImportMap) (p : String) (k : String) :
    k ∈ rootKeys m (some p) ↔ k ∈ mapKeys m ∧ startsWithStr k p = true := by
  simp [rootKeys, List.mem_filter]

/-! ## Reachability -/

/-- All reference strings occurring in the Import Map. -/
def allRefs (m : ImportMap) : List String := (m.map Prod.snd).flatten

/-- `Reaches m roots k d`: identity `k` is reachable from some root in
exactly `d` Import-Map steps. -/
inductive Reaches (m : ImportMap) (roots : List String) :
    String → Nat → Prop where
  | root {k : String} : k ∈ roots → Reaches m roots k 0
  | step {k : String} {d : Nat} {rs : List String} {r : String} :
      Reaches m roots k d → find m k = some rs → r ∈ rs →
      Reaches m roots r (d + 1)

theorem Reaches.mem_or {m : ImportMap} {roots : List String} {k : String}
    {d : Nat} (h : Reaches m roots k d) : k ∈ roots ∨ k ∈ allRefs m := by
  induction h with
  | root h => exact Or.inl h
  | @step k' d' rs r _ hf hr _ =>
    right
    unfold allRefs
    rw [List.mem_flatten]
    exact ⟨rs, List.mem_map_of_mem Prod.snd (find_mem hf), hr⟩

/-! ## Simple properties of the traversal loop -/

/-- The inner `unwrap` of the reference-appending loop never panics:
the entry for the expanded identity is always inserted first. -/
theorem buildLoopF_ne_panic (m : ImportMap) (maxD : Nat) :
    ∀ (fuel : Nat) (stack : List (String × Nat)) (visited : List String)
      (t : ImportMap),
    (buildLoopF m maxD fuel stack visited t).isPanic = false := by
  intro fuel
  induction fuel with
  | zero =>
    intro stack visited t
    rcases stack with _ | ⟨p, rest⟩ <;> rfl
  | succ fuel ih =>
    intro stack visited t
    rcases stack with _ | ⟨⟨k, d⟩, rest⟩
    · rfl
    · show (buildLoopF m maxD (fuel + 1) ((k, d) :: rest) visited t).isPanic
        = false
      rw [buildLoopF]
      by_cases h1 : d > maxD
      · rw [if_pos h1]; exact ih ..
      · rw [if_neg h1]
        by_cases h2 : k ∈ visited
        · rw [if_pos h2]; exact ih ..
        · rw [if_neg h2]
          rcases hf : find m k with _ | refs
          · exact ih ..
          · obtain ⟨t', s', heq, -⟩ :=
              expandRefs_spec k d refs (entryOrInsert t k) rest
                ((find t k).getD []) (find_entryOrInsert_self t k)
            simp only [heq]
            exact ih ..

/-- The visited set stays duplicate-free: each identity is recorded as
expanded at most once. -/
theorem buildLoopF_visited_nodup (m : ImportMap) (maxD : Nat) :
    ∀ (fuel : Nat) (stack : List (String × Nat)) (visited : List String)
      (t t' : ImportMap) (v' : List String),
    visited.Nodup → buildLoopF m maxD fuel stack visited t = .done t' v' →
    v'.Nodup := by
  intro fuel
  induction fuel with
  | zero =>
    intro stack visited t t' v' hn h
    rcases stack with _ | ⟨p, rest⟩
    · obtain ⟨rfl, rfl⟩ : t = t' ∧ visited = v' := by
        cases h; exact ⟨rfl, rfl⟩
      exact hn
    · cases h
  | succ fuel ih =>
    intro stack visited t t' v' hn h
    rcases stack with _ | ⟨⟨k, d⟩, rest⟩
    · obtain ⟨rfl, rfl⟩ : t = t' ∧ visited = v' := by
        cases h; exact ⟨rfl, rfl⟩
      exact hn
    · rw [buildLoopF] at h
      by_cases h1 : d > maxD
      · rw [if_pos h1] at h; exact ih _ _ _ _ _ hn h
      · rw [if_neg h1] at h
        by_cases h2 : k ∈ visited
        · rw [if_pos h2] at h; exact ih _ _ _ _ _ hn h
        · rw [if_neg h2] at h
          have hn' : (k :: visited).Nodup := List.nodup_cons.mpr ⟨h2, hn⟩
          rcases hf : find m k with _ | refs
          · rw [hf] at h; exact ih _ _ _ _ _ hn' h
          · obtain ⟨t₂, s₂, heq, -⟩ :=
              expandRefs_spec k d refs (entryOrInsert t k) rest
                ((find t k).getD []) (find_entryOrInsert_self t k)
            simp only [hf, heq] at h
            exact ih _ _ _ _ _ hn' h

/-- The central invariant of the traversal loop: with enough fuel the
loop completes; the final tree's keys are exactly the final visited
set; every visited identity was reached from a root within the depth
bound; every tree entry carries exactly the Import Map's reference
list for its key (`[]` for a dangling identity); the tree keys are
duplicate-free; the visited set only grows; and every stack element
within the depth bound ends up visited. -/
theorem buildLoopF_spec (m : ImportMap) (maxD : Nat) (roots : List String) :
    ∀ (fuel : Nat) (stack : List (String × Nat)) (visited : List String)
      (t : ImportMap),
    (∀ p ∈ stack, Reaches m roots p.1 p.2) →
    (∀ k ∈ visited, ∃ d, d ≤ maxD ∧ Reaches m roots k d) →
    (∀ k, k ∈ mapKeys t ↔ k ∈ visited) →
    (∀ k ∈ visited, find t k = some ((find m k).getD [])) →
    (mapKeys t).Nodup →
    stack.length + sumRefsUnvisited m visited ≤ fuel →
    ∃ t' v', buildLoopF m maxD fuel stack visited t = .done t' v' ∧
      (∀ k, k ∈ mapKeys t' ↔ k ∈ v') ∧
      (∀ k ∈ v', ∃ d, d ≤ maxD ∧ Reaches m roots k d) ∧
      (∀ k ∈ v', find t' k = some ((find m k).getD [])) ∧
      (mapKeys t').Nodup ∧
      (∀ k ∈ visited, k ∈ v') ∧
      (∀ p ∈ stack, p.2 ≤ maxD → p.1 ∈ v') := by
  intro fuel
  induction fuel with
  | zero =>
    intro stack visited t hstack hvis hkeys hval hnod hfuel
    rcases stack with _ | ⟨p, rest⟩
    · exact ⟨t, visited, rfl, hkeys, hvis, hval, hnod, fun k hk => hk,
        by simp⟩
    · simp only [List.length_cons] at hfuel
      omega
  | succ fuel ih =>
    intro stack visited t hstack hvis hkeys hval hnod hfuel
    rcases stack with _ | ⟨⟨k, d⟩, rest⟩
    · exact ⟨t, visited, rfl, hkeys, hvis, hval, hnod, fun k hk => hk,
        by simp⟩
    · have hrest : ∀ p ∈ rest, Reaches m roots p.1 p.2 :=
        fun p hp => hstack p (List.mem_cons_of_mem _ hp)
      have hkd : Reaches m roots k d := hstack (k, d) (List.mem_cons_self _ _)
      rw [buildLoopF]
      by_cases h1 : d > maxD
      · rw [if_pos h1]
        have hfuel' : rest.length + sumRefsUnvisited m visited ≤ fuel := by
          simp only [List.length_cons] at hfuel
          omega
        obtain ⟨t', v', heq, c1, c2, c3, c4, c5, c6⟩ :=
          ih rest visited t hrest hvis hkeys hval hnod hfuel'
        refine ⟨t', v', heq, c1, c2, c3, c4, c5, ?_⟩
        intro p hp hple
        rcases List.mem_cons.mp hp with rfl | hp
        · exact absurd hple (by omega)
        · exact c6 p hp hple
      · rw [if_neg h1]
        have hdle : d ≤ maxD := by omega
        by_cases h2 : k ∈ visited
        · rw [if_pos h2]
          have hfuel' : rest.length + sumRefsUnvisited m visited ≤ fuel := by
            simp only [List.length_cons] at hfuel
            omega
          obtain ⟨t', v', heq, c1, c2, c3, c4, c5, c6⟩ :=
            ih rest visited t hrest hvis hkeys hval hnod hfuel'
          refine ⟨t', v', heq, c1, c2, c3, c4, c5, ?_⟩
          intro p hp hple
          rcases List.mem_cons.mp hp with rfl | hp
          · exact c5 k h2
          · exact c6 p hp hple
        · rw [if_neg h2]
          have hknotkey : k ∉ mapKeys t := fun hh => h2 ((hkeys k).mp hh)
          have hfindtk : find t k = none := (find_eq_none_iff t k).mpr hknotkey
          have hkeyst' : mapKeys (entryOrInsert t k) = mapKeys t ++ [k] := by
            rw [mapKeys_entryOrInsert, if_neg hknotkey]
          have hvis' : ∀ x ∈ k :: visited,
              ∃ dd, dd ≤ maxD ∧ Reaches m roots x dd := by
            intro x hx
            rcases List.mem_cons.mp hx with rfl | hx
            · exact ⟨d, hdle, hkd⟩
            · exact hvis x hx
          have hnod' : (mapKeys (entryOrInsert t k)).Nodup := by
            rw [hkeyst', List.nodup_append]
            refine ⟨hnod, List.nodup_singleton _, ?_⟩
            intro x hx hx1
            rw [List.mem_singleton] at hx1
            subst hx1
            exact hknotkey hx
          have hkeys' : ∀ x, x ∈ mapKeys (entryOrInsert t k) ↔
              x ∈ k :: visited := by
            intro x
            rw [hkeyst']
            simp only [List.mem_append, List.mem_singleton, List.mem_cons,
              hkeys x]
            tauto
          rcases hf : find m k with _ | refs
          · have hval' : ∀ x ∈ k :: visited,
                find (entryOrInsert t k) x = some ((find m x).getD []) := by
              intro x hx
              rcases List.mem_cons.mp hx with rfl | hx
              · rw [find_entryOrInsert_self, hfindtk, hf]
              · have hxk : x ≠ k := fun hh => h2 (hh ▸ hx)
                rw [find_entryOrInsert_other t k x hxk]
                exact hval x hx
            have hfuel' : rest.length + sumRefsUnvisited m (k :: visited)
                ≤ fuel := by
              have hmono := sumRefsUnvisited_mono m k visited
              simp only [List.length_cons] at hfuel
              omega
            obtain ⟨t', v', heq, c1, c2, c3, c4, c5, c6⟩ :=
              ih rest (k :: visited) (entryOrInsert t k) hrest hvis' hkeys'
                hval' hnod' hfuel'
            refine ⟨t', v', ?_, c1, c2, c3, c4, ?_, ?_⟩
            · simp only [hf]
              exact heq
            · intro x hx
              exact c5 x (List.mem_cons_of_mem _ hx)
            · intro p hp hple
              rcases List.mem_cons.mp hp with rfl | hp
              · exact c5 k (List.mem_cons_self _ _)
              · exact c6 p hp hple
          · obtain ⟨t₂, s₂, heq, hfind₂, hother₂, hkeys₂, hmem₂, hlen₂⟩ :=
              expandRefs_spec k d refs (entryOrInsert t k) rest
                ((find t k).getD []) (find_entryOrInsert_self t k)
            rw [hfindtk] at hfind₂
            have hfind₂' : find t₂ k = some refs := by simpa using hfind₂
            have hstack' : ∀ p ∈ s₂, Reaches m roots p.1 p.2 := by
              intro p hp
              rcases (hmem₂ p).mp hp with hp | ⟨r, hr, rfl⟩
              · exact hrest p hp
              · exact Reaches.step hkd hf hr
            have hval' : ∀ x ∈ k :: visited,
                find t₂ x = some ((find m x).getD []) := by
              intro x hx
              rcases List.mem_cons.mp hx with rfl | hx
              · rw [hfind₂', hf]
                rfl
              · have hxk : x ≠ k := fun hh => h2 (hh ▸ hx)
                rw [hother₂ x hxk, find_entryOrInsert_other t k x hxk]
                exact hval x hx
            have hnod₂ : (mapKeys t₂).Nodup := by
              rw [hkeys₂]
              exact hnod'
            have hkeysIff : ∀ x, x ∈ mapKeys t₂ ↔ x ∈ k :: visited := by
              intro x
              rw [hkeys₂]
              exact hkeys' x
            have hfuel' : s₂.length + sumRefsUnvisited m (k :: visited)
                ≤ fuel := by
              have hexp := sumRefsUnvisited_expand m k visited refs h2 hf
              simp only [List.length_cons] at hfuel
              omega
            obtain ⟨t', v', heqL, c1, c2, c3, c4, c5, c6⟩ :=
              ih s₂ (k :: visited) t₂ hstack' hvis' hkeysIff hval' hnod₂
                hfuel'
            refine ⟨t', v', ?_, c1, c2, c3, c4, ?_, ?_⟩
            · simp only [hf, heq]
              exact heqL
            · intro x hx
              exact c5 x (List.mem_cons_of_mem _ hx)
            · intro p hp hple
              rcases List.mem_cons.mp hp with rfl | hp
              · exact c5 k (List.mem_cons_self _ _)
              · exact c6 p ((hmem₂ p).mpr (Or.inl hp)) hple

/-- `build_dependency_tree` always completes with a subgraph satisfying
the traversal guarantees: every key was reached from a root within the
depth bound, every entry's reference list is exactly the Import Map's
list for that key (empty for dangling identities), keys are
duplicate-free, and every root key is present with its full list. -/
theorem build_dependency_tree_spec (m : ImportMap) (pfx : Option String)
    (depth : Option Nat) :
    ∃ t, build_dependency_tree m pfx depth = some t ∧
      (∀ k, k ∈ mapKeys t → ∃ d, d ≤ depth.getD USIZE_MAX ∧
        Reaches m (rootKeys m pfx) k d) ∧
      (∀ k v, find t k = some v → v = (find m k).getD []) ∧
      (mapKeys t).Nodup ∧
      (∀ k, k ∈ rootKeys m pfx → find t k = some ((find m k).getD [])) := by
  have hstack : ∀ p ∈ initStack m pfx, Reaches m (rootKeys m pfx) p.1 p.2 := by
    intro p hp
    obtain ⟨k, d⟩ := p
    obtain ⟨hk, rfl⟩ := (initStack_mem m pfx k d).mp hp
    exact Reaches.root hk
  obtain ⟨t', v', heq, c1, c2, c3, c4, c5, c6⟩ :=
    buildLoopF_spec m (depth.getD USIZE_MAX) (rootKeys m pfx)
      ((initStack m pfx).length + sumRefsUnvisited m [] + 1)
      (initStack m pfx) [] []
      hstack
      (fun k hk => absurd hk (List.not_mem_nil k))
      (fun k => by simp [mapKeys])
      (fun k hk => absurd hk (List.not_mem_nil k))
      List.nodup_nil
      (Nat.le_succ _)
  refine ⟨t', ?_, ?_, ?_, c4, ?_⟩
  · unfold build_dependency_tree
    simp only [heq]
  · intro k hk
    exact c2 k ((c1 k).mp hk)
  · intro k v hv
    have hk : k ∈ mapKeys t' := by
      rw [← find_isSome_iff, hv]
      rfl
    have := c3 k ((c1 k).mp hk)
    rw [hv] at this
    exact Option.some.inj this
  · intro k hk
    have hmem : (k, 0) ∈ initStack m pfx :=
      (initStack_mem m pfx k 0).mpr ⟨hk, rfl⟩
    exact c3 k (c6 (k, 0) hmem (Nat.zero_le _))

/-! ## Scan content: specification-side views of the filesystem model -/

/-- The Import-Map contribution of a single file entry: its extracted
package mapped to its extracted imports, provided it passes the
extension filter and yields an identity. -/
def fileRecord (ext : Option String) (readable : Bool) (pkg : Option String)
    (imps : List String) : List (String × List String) :=
  match ext with
  | some e =>
    if e = "java" then
      match extract_package readable pkg with
      | some n => [(n, (extract_imports readable imps).getD [])]
      | none => []
    else []
  | none => []

/-- Every visited entry of one directory level has readable metadata
(the condition for one `seqEntries` pass not to panic). -/
def entriesOk : FSEntries → Bool
  | .nil => true
  | .cons entryOk metaOk _ rest =>
    if entryOk then metaOk && entriesOk rest else entriesOk rest

mutual
/-- Every entry the scan of this tree visits has readable metadata:
the condition for the scan not to panic. -/
def scanOk : FSTree → Bool
  | .file _ _ _ _ => true
  | .dir readOk es => if readOk then scanOkE es else true

def scanOkE : FSEntries → Bool
  | .nil => true
  | .cons entryOk metaOk node rest =>
    if entryOk then metaOk && scanOk node && scanOkE rest else scanOkE rest
end

/-- The file records of one directory level, in entry order. -/
def filesOfE : FSEntries → List (String × List String)
  | .nil => []
  | .cons entryOk metaOk node rest =>
    if entryOk && metaOk then
      (match node with
       | .file ext readable pkg imps => fileRecord ext readable pkg imps
       | .dir _ _ => []) ++ filesOfE rest
    else filesOfE rest

/-- The subdirectories of one directory level, in entry order. -/
def dirsOfE : FSEntries → List FSTree
  | .nil => []
  | .cons entryOk metaOk node rest =>
    if entryOk && metaOk then
      (match node with
       | .dir r es => [FSTree.dir r es]
       | .file _ _ _ _ => []) ++ dirsOfE rest
    else dirsOfE rest

mutual
/-- The canonical scan content of a tree: the records of all visited
matching files, in depth-first entry order. -/
def pkgsOf : FSTree → List (String × List String)
  | .file _ _ _ _ => []
  | .dir readOk es => if readOk then pkgsOfE es else []

/-- The canonical scan content below one directory level. -/
def pkgsOfE : FSEntries → List (String × List String)
  | .nil => []
  | .cons entryOk metaOk node rest =>
    if entryOk && metaOk then
      (match node with
       | .file ext readable pkg imps => fileRecord ext readable pkg imps
       | .dir r es => pkgsOf (FSTree.dir r es)) ++ pkgsOfE rest
    else pkgsOfE rest
end

/-- Total size of the trees on the sequential work stack. -/
def stackSize : List FSTree → Nat
  | [] => 0
  | t :: rest => sizeT t + stackSize rest

/-- The canonical scan content of a whole work stack, in pop order. -/
def pkgsStack (stack : List FSTree) : List (String × List String) :=
  (stack.map pkgsOf).flatten

/-- The merge fold shared by both scanners: insert every pair of `l`
into `acc`. -/
def foldIns (acc : ImportMap) (l : List (String × List String)) : ImportMap :=
  l.foldl (fun a e => insertMap a e.1 e.2) acc

/-! ## Scanner lemmas -/

theorem insertMap_fresh : ∀ (acc : ImportMap) (k : String) (v : List String),
    k ∉ mapKeys acc → insertMap acc k v = acc ++ [(k, v)]
  | [], _, _, _ => rfl
  | (k₀, v₀) :: rest, k, v, h => by
    have hk : ¬ k₀ = k := by
      intro hh
      subst hh
      exact h (by simp [mapKeys])
    have h' : k ∉ mapKeys rest := fun hh =>
      h (show k ∈ mapKeys ((k₀, v₀) :: rest) from List.mem_cons_of_mem _ hh)
    simp [insertMap, hk, insertMap_fresh rest k v h']

theorem foldIns_fresh : ∀ (l : List (String × List String)) (acc : ImportMap),
    (mapKeys acc ++ l.map Prod.fst).Nodup → foldIns acc l = acc ++ l
  | [], acc, _ => by simp [foldIns]
  | (k, v) :: rest, acc, h => by
    have hk : k ∉ mapKeys acc := by
      intro hmem
      rw [List.map_cons, List.nodup_append] at h
      exact h.2.2 hmem (by simp)
    have hrec : (mapKeys (acc ++ [(k, v)]) ++ rest.map Prod.fst).Nodup := by
      rw [mapKeys_append]
      have h2 : mapKeys acc ++ ((k, v) :: rest).map Prod.fst
          = (mapKeys acc ++ mapKeys [(k, v)]) ++ rest.map Prod.fst := by
        simp [mapKeys]
      rw [h2] at h
      exact h
    calc foldIns acc ((k, v) :: rest)
        = foldIns (insertMap acc k v) rest := rfl
      _ = foldIns (acc ++ [(k, v)]) rest := by
          rw [insertMap_fresh acc k v hk]
      _ = (acc ++ [(k, v)]) ++ rest := foldIns_fresh rest _ hrec
      _ = acc ++ ((k, v) :: rest) := by simp

theorem find_perm {l l' : ImportMap} (hn : (mapKeys l).Nodup)
    (hp : l.Perm l') : ∀ k, find l k = find l' k := by
  intro k
  have hn' : (mapKeys l').Nodup := ((hp.map Prod.fst).nodup_iff).mp hn
  rcases h : find l k with _ | v
  · have hk := (find_eq_none_iff l k).mp h
    have hk' : k ∉ mapKeys l' := fun hh =>
      hk (((hp.map Prod.fst).mem_iff).mpr hh)
    exact ((find_eq_none_iff l' k).mpr hk').symm
  · have hm : (k, v) ∈ l' := hp.mem_iff.mp (find_mem h)
    exact (mem_find hn' hm).symm

theorem flatten_reverse_perm {α : Type} : ∀ L : List (List α),
    L.reverse.flatten.Perm L.flatten
  | [] => List.Perm.refl _
  | a :: L => by
    have ih := flatten_reverse_perm L
    simp only [List.reverse_cons, List.flatten_append, List.flatten_cons,
      List.flatten_nil, List.append_nil]
    exact List.Perm.trans List.perm_append_comm (List.Perm.append_left a ih)

theorem pkgsStack_cons (t : FSTree) (stack : List FSTree) :
    pkgsStack (t :: stack) = pkgsOf t ++ pkgsStack stack := by
  simp [pkgsStack]

theorem pkgsStack_append (l₁ l₂ : List FSTree) :
    pkgsStack (l₁ ++ l₂) = pkgsStack l₁ ++ pkgsStack l₂ := by
  simp [pkgsStack]

theorem pkgsStack_reverse_perm (l : List FSTree) :
    (pkgsStack l.reverse).Perm (pkgsStack l) := by
  unfold pkgsStack
  rw [List.map_reverse]
  exact flatten_reverse_perm _

theorem sizeT_pos : ∀ t : FSTree, 1 ≤ sizeT t
  | .file _ _ _ _ => Nat.le_refl _
  | .dir _ es => by simp [sizeT]

theorem stackSize_append : ∀ l₁ l₂ : List FSTree,
    stackSize (l₁ ++ l₂) = stackSize l₁ + stackSize l₂
  | [], _ => by simp [stackSize]
  | t :: rest, l₂ => by
    show stackSize (t :: (rest ++ l₂)) = stackSize (t :: rest) + stackSize l₂
    simp only [stackSize]
    rw [stackSize_append rest l₂]
    omega

theorem stackSize_reverse : ∀ l : List FSTree,
    stackSize l.reverse = stackSize l
  | [] => rfl
  | t :: rest => by
    simp only [List.reverse_cons, stackSize_append, stackSize,
      stackSize_reverse rest]
    omega

theorem dirsOfE_size : ∀ es : FSEntries, stackSize (dirsOfE es) ≤ sizeE es
  | .nil => Nat.le_refl _
  | .cons eo mo node rest => by
    have ih := dirsOfE_size rest
    have h1 := sizeT_pos node
    rcases eo with _ | _ <;> rcases mo with _ | _ <;>
      rcases node with ⟨ext, r, p, i⟩ | ⟨r, es'⟩ <;>
      simp [dirsOfE, sizeE, stackSize] <;>
      omega

theorem scanOkE_iff : ∀ es : FSEntries, scanOkE es = true ↔
    (entriesOk es = true ∧ ∀ t ∈ dirsOfE es, scanOk t = true)
  | .nil => by simp [scanOkE, entriesOk, dirsOfE]
  | .cons eo mo node rest => by
    have ih := scanOkE_iff rest
    rcases eo with _ | _
    · simp only [scanOkE, entriesOk, dirsOfE, Bool.false_and, if_false,
        Bool.false_eq_true]
      exact ih
    · rcases mo with _ | _
      · simp [scanOkE, entriesOk, dirsOfE]
      · rcases node with ⟨ext, r, p, i⟩ | ⟨r, es'⟩
        · simp only [scanOkE, entriesOk, dirsOfE, scanOk, Bool.true_and,
            Bool.and_true, if_true, List.nil_append]
          exact ih
        · simp only [scanOkE, entriesOk, dirsOfE, Bool.true_and, if_true,
            List.singleton_append, Bool.and_eq_true, List.mem_cons, ih]
          constructor
          · rintro ⟨h1, h2, h3⟩
            refine ⟨h2, ?_⟩
            rintro t (rfl | ht)
            · exact h1
            · exact h3 t ht
          · rintro ⟨h1, h2⟩
            exact ⟨h2 _ (Or.inl rfl), h1, fun t ht => h2 t (Or.inr ht)⟩

theorem pkgsOfE_perm : ∀ es : FSEntries,
    (pkgsOfE es).Perm (filesOfE es ++ pkgsStack (dirsOfE es))
  | .nil => by simp [pkgsOfE, filesOfE, dirsOfE, pkgsStack]
  | .cons eo mo node rest => by
    have ih := pkgsOfE_perm rest
    rcases eo with _ | _ <;> rcases mo with _ | _
    · simpa [pkgsOfE, filesOfE, dirsOfE] using ih
    · simpa [pkgsOfE, filesOfE, dirsOfE] using ih
    · simpa [pkgsOfE, filesOfE, dirsOfE] using ih
    · rcases node with ⟨ext, r, p, i⟩ | ⟨r, es'⟩
      · simp only [pkgsOfE, filesOfE, dirsOfE, Bool.and_self, if_true,
          List.nil_append, List.append_assoc]
        exact List.Perm.append_left _ ih
      · simp only [pkgsOfE, filesOfE, dirsOfE, Bool.and_self, if_true,
          List.nil_append, List.singleton_append, pkgsStack_cons]
        refine (List.Perm.append_left _ ih).trans ?_
        rw [← List.append_assoc, ← List.append_assoc]
        exact List.Perm.append_right _ List.perm_append_comm

theorem seqEntries_panic : ∀ (es : FSEntries) (stack : List FSTree)
    (acc : ImportMap), entriesOk es = false → seqEntries es stack acc = none
  | .nil, _, _, h => by simp [entriesOk] at h
  | .cons eo mo node rest, stack, acc, h => by
    rcases eo with _ | _
    · have h' : entriesOk rest = false := by simpa [entriesOk] using h
      simpa [seqEntries] using seqEntries_panic rest stack acc h'
    · rcases mo with _ | _
      · simp [seqEntries]
      · have h' : entriesOk rest = false := by simpa [entriesOk] using h
        rcases node with ⟨ext, r, p, i⟩ | ⟨r, es'⟩
        · rcases ext with _ | e
          · simpa [seqEntries] using seqEntries_panic rest stack acc h'
          · by_cases he : e = "java"
            · rcases hp : extract_package r p with _ | n
              · simpa [seqEntries, he, hp] using
                  seqEntries_panic rest stack acc h'
              · simpa [seqEntries, he, hp] using
                  seqEntries_panic rest stack
                    (insertMap acc n ((extract_imports r i).getD [])) h'
            · simpa [seqEntries, he] using seqEntries_panic rest stack acc h'
        · simpa [seqEntries] using
            seqEntries_panic rest (FSTree.dir r es' :: stack) acc h'

theorem seqEntries_ok : ∀ (es : FSEntries) (stack : List FSTree)
    (acc : ImportMap), entriesOk es = true →
    seqEntries es stack acc =
      some ((dirsOfE es).reverse ++ stack, foldIns acc (filesOfE es))
  | .nil, stack, acc, _ => by simp [seqEntries, dirsOfE, filesOfE, foldIns]
  | .cons eo mo node rest, stack, acc, h => by
    rcases eo with _ | _
    · have h' : entriesOk rest = true := by simpa [entriesOk] using h
      simpa [seqEntries, dirsOfE, filesOfE] using
        seqEntries_ok rest stack acc h'
    · rcases mo with _ | _
      · simp [entriesOk] at h
      · have h' : entriesOk rest = true := by simpa [entriesOk] using h
        rcases node with ⟨ext, r, p, i⟩ | ⟨r, es'⟩
        · rcases ext with _ | e
          · simpa [seqEntries, dirsOfE, filesOfE, fileRecord] using
              seqEntries_ok rest stack acc h'
          · by_cases he : e = "java"
            · rcases hp : extract_package r p with _ | n
              · simpa [seqEntries, dirsOfE, filesOfE, fileRecord, he, hp]
                  using seqEntries_ok rest stack acc h'
              · simpa [seqEntries, dirsOfE, filesOfE, fileRecord, foldIns,
                  he, hp] using
                  seqEntries_ok rest stack
                    (insertMap acc n ((extract_imports r i).getD [])) h'
            · simpa [seqEntries, dirsOfE, filesOfE, fileRecord, he] using
                seqEntries_ok rest stack acc h'
        · simpa [seqEntries, dirsOfE, filesOfE] using
            seqEntries_ok rest (FSTree.dir r es' :: stack) acc h'

theorem seqLoop_done : ∀ (fuel : Nat) (stack : List FSTree)
    (acc : ImportMap), stackSize stack ≤ fuel →
    (∀ t ∈ stack, scanOk t = true) →
    ∃ ms, seqLoop fuel stack acc = .done ms := by
  intro fuel
  induction fuel with
  | zero =>
    intro stack acc hsz _
    rcases stack with _ | ⟨t, rest⟩
    · exact ⟨acc, rfl⟩
    · have := sizeT_pos t
      simp only [stackSize] at hsz
      omega
  | succ fuel ih =>
    intro stack acc hsz hok
    rcases stack with _ | ⟨t, rest⟩
    · exact ⟨acc, rfl⟩
    · have hszr : stackSize rest ≤ fuel := by
        have := sizeT_pos t
        simp only [stackSize] at hsz
        omega
      have hokr : ∀ u ∈ rest, scanOk u = true :=
        fun u hu => hok u (List.mem_cons_of_mem _ hu)
      rcases t with ⟨ext, r, p, i⟩ | ⟨readOk, es⟩
      · exact ih rest acc hszr hokr
      · rcases readOk with _ | _
        · exact ih rest acc hszr hokr
        · have hok0 : scanOkE es = true := by
            simpa [scanOk] using hok _ (List.mem_cons_self _ _)
          obtain ⟨hent, hdirs⟩ := (scanOkE_iff es).mp hok0
          have hstep : seqLoop (fuel + 1) (FSTree.dir true es :: rest) acc
              = seqLoop fuel ((dirsOfE es).reverse ++ rest)
                  (foldIns acc (filesOfE es)) := by
            show (match seqEntries es rest acc with
              | none => ScanResult.panicked
              | some (s', a') => seqLoop fuel s' a') = _
            rw [seqEntries_ok es rest acc hent]
          rw [hstep]
          apply ih
          · rw [stackSize_append, stackSize_reverse]
            have := dirsOfE_size es
            simp only [stackSize, sizeT] at hsz
            omega
          · intro u hu
            rcases List.mem_append.mp hu with hu | hu
            · exact hdirs u (List.mem_reverse.mp hu)
            · exact hokr u hu

theorem seqLoop_panic : ∀ (fuel : Nat) (stack : List FSTree)
    (acc : ImportMap), stackSize stack ≤ fuel →
    (∃ t ∈ stack, scanOk t = false) →
    seqLoop fuel stack acc = .panicked := by
  intro fuel
  induction fuel with
  | zero =>
    intro stack acc hsz hbad
    rcases stack with _ | ⟨t, rest⟩
    · obtain ⟨b, hb, _⟩ := hbad
      cases hb
    · have := sizeT_pos t
      simp only [stackSize] at hsz
      omega
  | succ fuel ih =>
    intro stack acc hsz hbad
    rcases stack with _ | ⟨t, rest⟩
    · obtain ⟨b, hb, _⟩ := hbad
      cases hb
    · have hszr : stackSize rest ≤ fuel := by
        have := sizeT_pos t
        simp only [stackSize] at hsz
        omega
      obtain ⟨b, hb, hbadb⟩ := hbad
      rcases t with ⟨ext, r, p, i⟩ | ⟨readOk, es⟩
      · have hbrest : b ∈ rest := by
          rcases List.mem_cons.mp hb with rfl | h
          · simp [scanOk] at hbadb
          · exact h
        exact ih rest acc hszr ⟨b, hbrest, hbadb⟩
      · rcases readOk with _ | _
        · have hbrest : b ∈ rest := by
            rcases List.mem_cons.mp hb with rfl | h
            · simp [scanOk] at hbadb
            · exact h
          exact ih rest acc hszr ⟨b, hbrest, hbadb⟩
        · have hszrec : stackSize ((dirsOfE es).reverse ++ rest) ≤ fuel := by
            rw [stackSize_append, stackSize_reverse]
            have := dirsOfE_size es
            simp only [stackSize, sizeT] at hsz
            omega
          by_cases hok : scanOkE es = true
          · have hbrest : b ∈ rest := by
              rcases List.mem_cons.mp hb with rfl | h
              · rw [show scanOk (FSTree.dir true es) = scanOkE es from by
                  simp [scanOk]] at hbadb
                rw [hok] at hbadb
                cases hbadb
              · exact h
            obtain ⟨hent, _⟩ := (scanOkE_iff es).mp hok
            have hstep : seqLoop (fuel + 1) (FSTree.dir true es :: rest) acc
                = seqLoop fuel ((dirsOfE es).reverse ++ rest)
                    (foldIns acc (filesOfE es)) := by
              show (match seqEntries es rest acc with
                | none => ScanResult.panicked
                | some (s', a') => seqLoop fuel s' a') = _
              rw [seqEntries_ok es rest acc hent]
            rw [hstep]
            exact ih _ _ hszrec
              ⟨b, List.mem_append.mpr (Or.inr hbrest), hbadb⟩
          · by_cases hent : entriesOk es = true
            · have hnot : ¬ ∀ u ∈ dirsOfE es, scanOk u = true := by
                intro hall
                exact hok ((scanOkE_iff es).mpr ⟨hent, hall⟩)
              push_neg at hnot
              obtain ⟨u, hu, hubad'⟩ := hnot
              have hubad : scanOk u = false := Bool.eq_false_iff.mpr hubad'
              have hstep : seqLoop (fuel + 1) (FSTree.dir true es :: rest) acc
                  = seqLoop fuel ((dirsOfE es).reverse ++ rest)
                      (foldIns acc (filesOfE es)) := by
                show (match seqEntries es rest acc with
                  | none => ScanResult.panicked
                  | some (s', a') => seqLoop fuel s' a') = _
                rw [seqEntries_ok es rest acc hent]
              rw [hstep]
              exact ih _ _ hszrec
                ⟨u, List.mem_append.mpr
                  (Or.inl (List.mem_reverse.mpr hu)), hubad⟩
            · have hnone := seqEntries_panic es rest acc
                (Bool.eq_false_iff.mpr hent)
              show (match seqEntries es rest acc with
                | none => ScanResult.panicked
                | some (s', a') => seqLoop fuel s' a') = ScanResult.panicked
              rw [hnone]

theorem seqLoop_perm : ∀ (fuel : Nat) (stack : List FSTree)
    (acc : ImportMap), stackSize stack ≤ fuel →
    (∀ t ∈ stack, scanOk t = true) →
    (mapKeys acc ++ (pkgsStack stack).map Prod.fst).Nodup →
    ∃ ms, seqLoop fuel stack acc = .done ms ∧
      ms.Perm (acc ++ pkgsStack stack) := by
  intro fuel
  induction fuel with
  | zero =>
    intro stack acc hsz _ _
    rcases stack with _ | ⟨t, rest⟩
    · exact ⟨acc, rfl, by simp [pkgsStack]⟩
    · have := sizeT_pos t
      simp only [stackSize] at hsz
      omega
  | succ fuel ih =>
    intro stack acc hsz hok hnod
    rcases stack with _ | ⟨t, rest⟩
    · exact ⟨acc, rfl, by simp [pkgsStack]⟩
    · have hszr : stackSize rest ≤ fuel := by
        have := sizeT_pos t
        simp only [stackSize] at hsz
        omega
      have hokr : ∀ u ∈ rest, scanOk u = true :=
        fun u hu => hok u (List.mem_cons_of_mem _ hu)
      rcases t with ⟨ext, r, p, i⟩ | ⟨readOk, es⟩
      · have hnod' : (mapKeys acc ++ (pkgsStack rest).map Prod.fst).Nodup := by
          simpa [pkgsStack_cons, pkgsOf] using hnod
        obtain ⟨ms, hms, hperm⟩ := ih rest acc hszr hokr hnod'
        exact ⟨ms, hms, by simpa [pkgsStack_cons, pkgsOf] using hperm⟩
      · rcases readOk with _ | _
        · have hnod' : (mapKeys acc ++ (pkgsStack rest).map Prod.fst).Nodup := by
            simpa [pkgsStack_cons, pkgsOf] using hnod
          obtain ⟨ms, hms, hperm⟩ := ih rest acc hszr hokr hnod'
          exact ⟨ms, hms, by simpa [pkgsStack_cons, pkgsOf] using hperm⟩
        · have hok0 : scanOkE es = true := by
            simpa [scanOk] using hok _ (List.mem_cons_self _ _)
          obtain ⟨hent, hdirs⟩ := (scanOkE_iff es).mp hok0
          have hcontent : (pkgsStack (FSTree.dir true es :: rest)).Perm
              (filesOfE es ++ pkgsStack ((dirsOfE es).reverse ++ rest)) := by
            rw [pkgsStack_cons, show pkgsOf (FSTree.dir true es) = pkgsOfE es
              from by simp [pkgsOf], pkgsStack_append]
            refine (List.Perm.append_right _ (pkgsOfE_perm es)).trans ?_
            rw [List.append_assoc]
            exact List.Perm.append_left _
              (List.Perm.append_right _ (pkgsStack_reverse_perm _).symm)
          have hbig : (acc ++ pkgsStack (FSTree.dir true es :: rest)).Perm
              ((acc ++ filesOfE es)
                ++ pkgsStack ((dirsOfE es).reverse ++ rest)) := by
            refine (List.Perm.append_left acc hcontent).trans ?_
            rw [List.append_assoc]
          have hnodbig : ((acc ++ pkgsStack (FSTree.dir true es :: rest)).map
              Prod.fst).Nodup := by
            simpa [mapKeys, List.map_append] using hnod
          have hnodnew : (((acc ++ filesOfE es)
              ++ pkgsStack ((dirsOfE es).reverse ++ rest)).map
                Prod.fst).Nodup :=
            ((hbig.map Prod.fst).nodup_iff).mp hnodbig
          have hfresh : (mapKeys acc ++ (filesOfE es).map Prod.fst).Nodup := by
            have hsub : (mapKeys acc ++ (filesOfE es).map Prod.fst).Sublist
                (((acc ++ filesOfE es)
                  ++ pkgsStack ((dirsOfE es).reverse ++ rest)).map
                    Prod.fst) := by
              rw [List.map_append, List.map_append]
              exact List.sublist_append_left _ _
            exact hnodnew.sublist hsub
          have hacc' : foldIns acc (filesOfE es) = acc ++ filesOfE es :=
            foldIns_fresh _ _ hfresh
          have hnodrec : (mapKeys (acc ++ filesOfE es)
              ++ (pkgsStack ((dirsOfE es).reverse ++ rest)).map
                Prod.fst).Nodup := by
            simpa [mapKeys, List.map_append] using hnodnew
          have hszrec : stackSize ((dirsOfE es).reverse ++ rest) ≤ fuel := by
            rw [stackSize_append, stackSize_reverse]
            have := dirsOfE_size es
            simp only [stackSize, sizeT] at hsz
            omega
          have hokrec : ∀ u ∈ (dirsOfE es).reverse ++ rest,
              scanOk u = true := by
            intro u hu
            rcases List.mem_append.mp hu with hu | hu
            · exact hdirs u (List.mem_reverse.mp hu)
            · exact hokr u hu
          obtain ⟨ms, hms, hperm⟩ :=
            ih ((dirsOfE es).reverse ++ rest) (acc ++ filesOfE es)
              hszrec hokrec hnodrec
          refine ⟨ms, ?_, hperm.trans hbig.symm⟩
          have hstep : seqLoop (fuel + 1) (FSTree.dir true es :: rest) acc
              = seqLoop fuel ((dirsOfE es).reverse ++ rest)
                  (foldIns acc (filesOfE es)) := by
            show (match seqEntries es rest acc with
              | none => ScanResult.panicked
              | some (s', a') => seqLoop fuel s' a') = _
            rw [seqEntries_ok es rest acc hent]
          rw [hstep, hacc']
          exact hms

theorem traverse_folder_none (fs : FSTree) (h : scanOk fs = false) :
    traverse_folder fs = none := by
  unfold traverse_folder
  rw [seqLoop_panic (sizeT fs + 1) [fs] []
    (by simp only [stackSize]; omega)
    ⟨fs, List.mem_singleton.mpr rfl, h⟩]

theorem traverse_folder_some (fs : FSTree) (h : scanOk fs = true) :
    (traverse_folder fs).isSome = true := by
  obtain ⟨ms, hms⟩ := seqLoop_done (sizeT fs + 1) [fs] []
    (by simp only [stackSize]; omega)
    (by
      intro t ht
      rw [List.mem_singleton] at ht
      subst ht
      exact h)
  unfold traverse_folder
  rw [hms]
  rfl

theorem traverse_folder_perm (fs : FSTree) (h : scanOk fs = true)
    (hnod : ((pkgsOf fs).map Prod.fst).Nodup) :
    ∃ ms, traverse_folder fs = some ms ∧ ms.Perm (pkgsOf fs) := by
  obtain ⟨ms, hms, hperm⟩ := seqLoop_perm (sizeT fs + 1) [fs] []
    (by simp only [stackSize]; omega)
    (by
      intro t ht
      rw [List.mem_singleton] at ht
      subst ht
      exact h)
    (by simpa [mapKeys, pkgsStack] using hnod)
  refine ⟨ms, ?_, by simpa [pkgsStack] using hperm⟩
  unfold traverse_folder
  rw [hms]

mutual
theorem par_isSome : ∀ fs : FSTree,
    (traverse_folder_par fs).isSome = scanOk fs
  | .file ext r p i => by simp [traverse_folder_par, scanOk]
  | .dir readOk es => by
    rcases readOk with _ | _
    · simp [traverse_folder_par, scanOk]
    · have := parEntries_isSome es []
      simpa [traverse_folder_par, scanOk] using this

theorem parEntries_isSome : ∀ (es : FSEntries) (acc : ImportMap),
    (parEntries es acc).isSome = scanOkE es
  | .nil, acc => by simp [parEntries, scanOkE]
  | .cons eo mo node rest, acc => by
    rcases eo with _ | _
    · simpa [parEntries, scanOkE] using parEntries_isSome rest acc
    · rcases mo with _ | _
      · simp [parEntries, scanOkE]
      · rcases node with ⟨ext, r, p, i⟩ | ⟨r, es'⟩
        · rcases ext with _ | e
          · simpa [parEntries, scanOkE, scanOk] using
              parEntries_isSome rest acc
          · by_cases he : e = "java"
            · rcases hp : extract_package r p with _ | n
              · simpa [parEntries, scanOkE, scanOk, he, hp] using
                  parEntries_isSome rest acc
              · simpa [parEntries, scanOkE, scanOk, he, hp] using
                  parEntries_isSome rest
                    (insertMap acc n ((extract_imports r i).getD []))
            · simpa [parEntries, scanOkE, scanOk, he] using
                parEntries_isSome rest acc
        · have hnode := par_isSome (FSTree.dir r es')
          rcases hpar : traverse_folder_par (FSTree.dir r es') with _ | child
          · rw [hpar] at hnode
            simp [parEntries, scanOkE, hpar, ← hnode]
          · rw [hpar] at hnode
            simpa [parEntries, scanOkE, hpar, ← hnode] using
              parEntries_isSome rest
                (child.foldl (fun a e => insertMap a e.1 e.2) acc)
end

theorem nodup_shift {A : List String} {k : String} {B : List String}
    (h : (A ++ k :: B).Nodup) : ((A ++ [k]) ++ B).Nodup := by
  rw [List.append_cons] at h
  exact h

theorem nodup_head_fresh {A : List String} {k : String} {B : List String}
    (h : (A ++ k :: B).Nodup) : k ∉ A := by
  intro hk
  rw [List.nodup_append] at h
  exact h.2.2 hk (List.mem_cons_self _ _)

mutual
theorem par_perm : ∀ fs : FSTree, scanOk fs = true →
    ((pkgsOf fs).map Prod.fst).Nodup →
    ∃ mp, traverse_folder_par fs = some mp ∧ mp.Perm (pkgsOf fs)
  | .file ext r p i, _, _ => ⟨[], rfl, by simp [pkgsOf]⟩
  | .dir readOk es, h, hnod => by
    rcases readOk with _ | _
    · exact ⟨[], rfl, by simp [pkgsOf]⟩
    · have h' : scanOkE es = true := by simpa [scanOk] using h
      have hnod' : (mapKeys ([] : ImportMap)
          ++ (pkgsOfE es).map Prod.fst).Nodup := by
        simpa [mapKeys, pkgsOf] using hnod
      obtain ⟨mp, hmp, hperm⟩ := parEntries_perm es [] h' hnod'
      refine ⟨mp, ?_, ?_⟩
      · show parEntries es [] = some mp
        exact hmp
      · simpa [pkgsOf] using hperm

theorem parEntries_perm : ∀ (es : FSEntries) (acc : ImportMap),
    scanOkE es = true →
    (mapKeys acc ++ (pkgsOfE es).map Prod.fst).Nodup →
    ∃ mp, parEntries es acc = some mp ∧ mp.Perm (acc ++ pkgsOfE es)
  | .nil, acc, _, _ => ⟨acc, rfl, by simp [pkgsOfE]⟩
  | .cons eo mo node rest, acc, h, hnod => by
    rcases eo with _ | _
    · have h' : scanOkE rest = true := by simpa [scanOkE] using h
      have hnod' : (mapKeys acc ++ (pkgsOfE rest).map Prod.fst).Nodup := by
        simpa [pkgsOfE] using hnod
      obtain ⟨mp, hmp, hperm⟩ := parEntries_perm rest acc h' hnod'
      exact ⟨mp, by simpa [parEntries] using hmp,
        by simpa [pkgsOfE] using hperm⟩
    · rcases mo with _ | _
      · simp [scanOkE] at h
      · have hparts : scanOk node = true ∧ scanOkE rest = true := by
          simpa [scanOkE, Bool.and_eq_true] using h
        obtain ⟨hnode, hrest⟩ := hparts
        rcases node with ⟨ext, r, p, i⟩ | ⟨r, es'⟩
        · rcases ext with _ | e
          · have hnod' : (mapKeys acc
                ++ (pkgsOfE rest).map Prod.fst).Nodup := by
              simpa [pkgsOfE, fileRecord] using hnod
            obtain ⟨mp, hmp, hperm⟩ := parEntries_perm rest acc hrest hnod'
            exact ⟨mp, by simpa [parEntries] using hmp,
              by simpa [pkgsOfE, fileRecord] using hperm⟩
          · by_cases he : e = "java"
            · rcases hp : extract_package r p with _ | n
              · have hnod' : (mapKeys acc
                    ++ (pkgsOfE rest).map Prod.fst).Nodup := by
                  simpa [pkgsOfE, fileRecord, he, hp] using hnod
                obtain ⟨mp, hmp, hperm⟩ :=
                  parEntries_perm rest acc hrest hnod'
                exact ⟨mp, by simpa [parEntries, he, hp] using hmp,
                  by simpa [pkgsOfE, fileRecord, he, hp] using hperm⟩
              · have hpk : pkgsOfE (FSEntries.cons true true
                    (FSTree.file (some e) r p i) rest)
                    = (n, (extract_imports r i).getD []) :: pkgsOfE rest := by
                  simp [pkgsOfE, fileRecord, he, hp]
                have hnodc : (mapKeys acc
                    ++ (n :: (pkgsOfE rest).map Prod.fst)).Nodup := by
                  have := hnod
                  rw [hpk] at this
                  simpa using this
                have hkfresh : n ∉ mapKeys acc := nodup_head_fresh hnodc
                have hacc' : insertMap acc n ((extract_imports r i).getD [])
                    = acc ++ [(n, (extract_imports r i).getD [])] :=
                  insertMap_fresh acc n _ hkfresh
                have hnod' : (mapKeys
                    (acc ++ [(n, (extract_imports r i).getD [])])
                    ++ (pkgsOfE rest).map Prod.fst).Nodup := by
                  rw [mapKeys_append]
                  exact nodup_shift hnodc
                obtain ⟨mp, hmp, hperm⟩ :=
                  parEntries_perm rest
                    (acc ++ [(n, (extract_imports r i).getD [])]) hrest hnod'
                refine ⟨mp, ?_, ?_⟩
                · have huf : parEntries (FSEntries.cons true true
                      (FSTree.file (some e) r p i) rest) acc
                      = parEntries rest
                        (insertMap acc n ((extract_imports r i).getD [])) := by
                    simp [parEntries, he, hp]
                  rw [huf, hacc']
                  exact hmp
                · rw [hpk]
                  refine hperm.trans ?_
                  rw [List.append_assoc, List.singleton_append]
            · have hnod' : (mapKeys acc
                  ++ (pkgsOfE rest).map Prod.fst).Nodup := by
                simpa [pkgsOfE, fileRecord, he] using hnod
              obtain ⟨mp, hmp, hperm⟩ := parEntries_perm rest acc hrest hnod'
              exact ⟨mp, by simpa [parEntries, he] using hmp,
                by simpa [pkgsOfE, fileRecord, he] using hperm⟩
        · have hpk : pkgsOfE (FSEntries.cons true true
              (FSTree.dir r es') rest)
              = pkgsOf (FSTree.dir r es') ++ pkgsOfE rest := by
            simp [pkgsOfE]
          have hnodc : (mapKeys acc
              ++ ((pkgsOf (FSTree.dir r es')).map Prod.fst
                ++ (pkgsOfE rest).map Prod.fst)).Nodup := by
            have := hnod
            rw [hpk] at this
            simpa [List.map_append] using this
          have hnodnode : ((pkgsOf (FSTree.dir r es')).map Prod.fst).Nodup := by
            refine hnodc.sublist ?_
            refine List.Sublist.trans (List.sublist_append_left _ _)
              (List.sublist_append_right _ _)
          obtain ⟨child, hchild, hcperm⟩ :=
            par_perm (FSTree.dir r es') hnode hnodnode
          have hfreshc : (mapKeys acc ++ child.map Prod.fst).Nodup := by
            have h1 : (mapKeys acc
                ++ (pkgsOf (FSTree.dir r es')).map Prod.fst).Nodup := by
              refine hnodc.sublist ?_
              rw [← List.append_assoc]
              exact List.sublist_append_left _ _
            exact ((List.Perm.append_left (mapKeys acc)
              (hcperm.map Prod.fst)).nodup_iff).mpr h1
          have hmerge : foldIns acc child = acc ++ child :=
            foldIns_fresh child acc hfreshc
          have hnodrec : (mapKeys (acc ++ child)
              ++ (pkgsOfE rest).map Prod.fst).Nodup := by
            have hp2 : ((mapKeys (acc ++ child))
                ++ (pkgsOfE rest).map Prod.fst).Perm
                (mapKeys acc ++ ((pkgsOf (FSTree.dir r es')).map Prod.fst
                  ++ (pkgsOfE rest).map Prod.fst)) := by
              rw [mapKeys_append, List.append_assoc]
              exact List.Perm.append_left _
                (List.Perm.append_right _ (hcperm.map Prod.fst))
            exact (hp2.nodup_iff).mpr hnodc
          obtain ⟨mp, hmp, hperm⟩ :=
            parEntries_perm rest (acc ++ child) hrest hnodrec
          refine ⟨mp, ?_, ?_⟩
          · have huf : parEntries (FSEntries.cons true true
                (FSTree.dir r es') rest) acc
                = parEntries rest
                  (child.foldl (fun a e => insertMap a e.1 e.2) acc) := by
              show (match traverse_folder_par (FSTree.dir r es') with
                | none => none
                | some child =>
                  parEntries rest
                    (child.foldl
                      (fun (a : ImportMap) (e : String × List String) =>
                        insertMap a e.1 e.2) acc)) = _
              rw [hchild]
            rw [huf]
            rw [show child.foldl (fun a e => insertMap a e.1 e.2) acc
              = foldIns acc child from rfl, hmerge]
            exact hmp
          · rw [hpk]
            refine hperm.trans ?_
            rw [List.append_assoc]
            exact List.Perm.append_left acc
              (List.Perm.append_right _ hcperm)
end

theorem isPrefixOf_self : ∀ l : List Char, l.isPrefixOf l = true
  | [] => rfl
  | c :: l => by simp [List.isPrefixOf, isPrefixOf_self l]

theorem startsWithStr_self (s : String) : startsWithStr s s = true :=
  isPrefixOf_self s.data

theorem find_insertMap_self : ∀ (m : ImportMap) (k : String)
    (v : List String), find (insertMap m k v) k = some v
  | [], k, v => by simp [insertMap, find]
  | (k₀, v₀) :: rest, k, v => by
    by_cases hk : k₀ = k
    · simp [insertMap, hk, find]
    · simp [insertMap, hk, find, find_insertMap_self rest k v]

/-! ## The claims -/

/-- C1: `build_dependency_tree` terminates on every Import Map,
including cyclic ones.  The loop runs on the explicit fuel
`|initial stack| + Σ |reference lists| + 1`, and
`build_dependency_tree_spec` proves that fuel always suffices, so the
call always completes with a subgraph.  For the cyclic map
`{A ↦ [B], B ↦ [A]}` with no root prefix and no depth bound, the call
terminates and returns a subgraph whose key set is exactly `{A, B}`;
in general every key of any result is among the finitely many
identities ever pushed: the root keys plus the references occurring in
the Import Map. -/
theorem build_terminates_on_cycles :
    (build_dependency_tree [("A", ["B"]), ("B", ["A"])] none none
      = some [("B", ["A"]), ("A", ["B"])]) ∧
    (∀ k, k ∈ mapKeys [("B", ["A"]), ("A", ["B"])] ↔
      (k = "A" ∨ k = "B")) ∧
    (∀ (m : ImportMap) (pfx : Option String) (depth : Option Nat)
      (t : ImportMap), build_dependency_tree m pfx depth = some t →
      ∀ k ∈ mapKeys t, k ∈ rootKeys m pfx ∨ k ∈ allRefs m) := by
  refine ⟨by decide, ?_, ?_⟩
  · intro k
    simp only [mapKeys, List.map_cons, List.map_nil, List.mem_cons,
      List.not_mem_nil, or_false]
    tauto
  intro m pfx depth t ht k hk
  obtain ⟨t', heq, hreach, -⟩ := build_dependency_tree_spec m pfx depth
  rw [heq] at ht
  obtain rfl := Option.some.inj ht
  obtain ⟨d, -, hr⟩ := hreach k hk
  exact hr.mem_or

/-- Witness for C1 at the concrete cyclic map. -/
theorem build_terminates_on_cycles_witness :
    build_dependency_tree [("A", ["B"]), ("B", ["A"])] none none
      = some [("B", ["A"]), ("A", ["B"])] ∧
    ("A" ∈ rootKeys [("A", ["B"]), ("B", ["A"])] none
      ∨ "A" ∈ allRefs [("A", ["B"]), ("B", ["A"])]) :=
  ⟨build_terminates_on_cycles.1,
    build_terminates_on_cycles.2.2 [("A", ["B"]), ("B", ["A"])] none none
      [("B", ["A"]), ("A", ["B"])] (by decide) "A" (by decide)⟩

/-- C2: every key of the returned subgraph was reached from some root
within the depth bound, and every edge `(k, r)` of the subgraph is
real: `r` occurs in the Import Map's reference list for `k`. -/
theorem build_subgraph_sound (m : ImportMap) (pfx : Option String)
    (depth : Option Nat) (t : ImportMap)
    (h : build_dependency_tree m pfx depth = some t) :
    (∀ k ∈ mapKeys t, ∃ d, d ≤ depth.getD USIZE_MAX ∧
      Reaches m (rootKeys m pfx) k d) ∧
    (∀ k v, find t k = some v → ∀ r ∈ v,
      ∃ full, find m k = some full ∧ r ∈ full) := by
  obtain ⟨t', heq, hreach, hval, -⟩ := build_dependency_tree_spec m pfx depth
  rw [heq] at h
  obtain rfl := Option.some.inj h
  refine ⟨hreach, ?_⟩
  intro k v hfind r hr
  have hv := hval k v hfind
  rcases hf : find m k with _ | full
  · rw [hf] at hv
    simp at hv
    subst hv
    cases hr
  · rw [hf] at hv
    simp at hv
    subst hv
    exact ⟨_, rfl, hr⟩

/-- Witness for C2 at the map `{A ↦ [B], B ↦ []}`. -/
theorem build_subgraph_sound_witness :
    (∀ k ∈ mapKeys [("B", ([] : List String)), ("A", ["B"])],
      ∃ d, d ≤ (none : Option Nat).getD USIZE_MAX ∧
        Reaches [("A", ["B"]), ("B", [])]
          (rootKeys [("A", ["B"]), ("B", [])] none) k d) ∧
    (∀ k v, find [("B", []), ("A", ["B"])] k = some v → ∀ r ∈ v,
      ∃ full, find [("A", ["B"]), ("B", [])] k = some full ∧ r ∈ full) :=
  build_subgraph_sound [("A", ["B"]), ("B", [])] none none
    [("B", []), ("A", ["B"])] (by decide)

/-- C3: a popped pair whose depth exceeds `max_depth` is discarded
without expansion; on the chain `{A ↦ [B], B ↦ [C], C ↦ [D]}` with
`max_depth = 1` and root `A` the result has exactly the keys `A` and
`B`, each with its edge to the next hop, and `C` occurs only as a
reference value, not as a key. -/
theorem depth_bound_honored :
    (∀ (m : ImportMap) (maxD fuel : Nat) (k : String) (d : Nat)
      (stack : List (String × Nat)) (visited : List String)
      (t : ImportMap), d > maxD →
      buildLoopF m maxD (fuel + 1) ((k, d) :: stack) visited t
        = buildLoopF m maxD fuel stack visited t) ∧
    (build_dependency_tree [("A", ["B"]), ("B", ["C"]), ("C", ["D"])]
      (some "A") (some 1) = some [("A", ["B"]), ("B", ["C"])]) ∧
    ("C" ∉ mapKeys [("A", ["B"]), ("B", ["C"])] ∧
      "C" ∈ (find [("A", ["B"]), ("B", ["C"])] "B").getD []) := by
  refine ⟨?_, by decide, by decide⟩
  intro m maxD fuel k d stack visited t hd
  rw [buildLoopF, if_pos hd]

/-- Witness for C3's discard rule at depth 2 against bound 1. -/
theorem depth_bound_honored_witness :
    2 > 1 ∧ buildLoopF [] 1 1 [("X", 2)] [] [] = buildLoopF [] 1 0 [] [] [] :=
  ⟨by decide, depth_bound_honored.1 [] 1 0 "X" 2 [] [] [] (by decide)⟩

/-- C4: with no prefix every Import-Map key is pushed as a root at
depth 0; with a prefix exactly the keys textually starting with it
are; and for the identities `{com.a.X, com.b.Y, org.c.Z}` with prefix
`"com.a"` nothing outside the part reachable from `com.a.X` — in
particular `org.c.Z` — appears in the result. -/
theorem root_selection :
    (∀ (m : ImportMap) (k : String) (d : Nat),
      (k, d) ∈ initStack m none ↔ (k ∈ mapKeys m ∧ d = 0)) ∧
    (∀ (m : ImportMap) (p k : String) (d : Nat),
      (k, d) ∈ initStack m (some p) ↔
        (k ∈ mapKeys m ∧ startsWithStr k p = true ∧ d = 0)) ∧
    (build_dependency_tree
      [("com.a.X", ["com.b.Y"]), ("com.b.Y", []), ("org.c.Z", ["com.a.X"])]
      (some "com.a") none
      = some [("com.a.X", ["com.b.Y"]), ("com.b.Y", [])] ∧
     "org.c.Z" ∉ mapKeys [("com.a.X", ["com.b.Y"]), ("com.b.Y", [])]) := by
  refine ⟨?_, ?_, by decide⟩
  · intro m k d
    rw [initStack_mem, rootKeys_none]
  · intro m p k d
    rw [initStack_mem, mem_rootKeys_some]
    tauto

/-- C5: during one call each Module Identity is expanded at most once:
the visited list records exactly one entry per executed expansion body
(most recent first), and starting from a duplicate-free visited set it
stays duplicate-free, so no identity's expansion body runs twice no
matter how many times the identity is pushed. -/
theorem each_identity_expanded_once (m : ImportMap) (maxD fuel : Nat)
    (stack : List (String × Nat)) (visited : List String)
    (t t' : ImportMap) (v' : List String)
    (hstart : visited.Nodup)
    (hdone : buildLoopF m maxD fuel stack visited t = .done t' v') :
    v'.Nodup ∧ ∀ k, v'.count k ≤ 1 := by
  have hn := buildLoopF_visited_nodup m maxD fuel stack visited t t' v'
    hstart hdone
  exact ⟨hn, fun k => List.nodup_iff_count_le_one.mp hn k⟩

/-- Witness for C5 at the concrete cyclic map. -/
theorem each_identity_expanded_once_witness :
    (["A", "B"] : List String).Nodup ∧ ∀ k, (["A", "B"] : List String).count k ≤ 1 :=
  each_identity_expanded_once [("A", ["B"]), ("B", ["A"])] USIZE_MAX 5
    [("B", 0), ("A", 0)] [] [] [("B", ["A"]), ("A", ["B"])] ["A", "B"]
    List.nodup_nil (by decide)

/-- C9: when a root class prefix is supplied, `main` inserts a
synthetic Import-Map entry keyed by the prefix itself whose reference
list is every identity of the scanned map that starts with the prefix;
the subgraph built afterwards therefore contains a node named exactly
the prefix with an edge to each matching identity. -/
theorem synthetic_root_entry (m : ImportMap) (pfx : String)
    (depth : Option Nat) (t : ImportMap)
    (h : build_dependency_tree (insertSyntheticRoot m pfx) (some pfx) depth
      = some t) :
    find t pfx =
      some ((m.map (fun e => e.1)).filter (fun k => startsWithStr k pfx)) := by
  obtain ⟨t', heq, -, -, -, hroot⟩ :=
    build_dependency_tree_spec (insertSyntheticRoot m pfx) (some pfx) depth
  rw [heq] at h
  obtain rfl := Option.some.inj h
  have hfind : find (insertSyntheticRoot m pfx) pfx
      = some ((m.map (fun e => e.1)).filter (fun k => startsWithStr k pfx)) :=
    find_insertMap_self m pfx _
  have hkmem : pfx ∈ rootKeys (insertSyntheticRoot m pfx) (some pfx) := by
    rw [mem_rootKeys_some]
    constructor
    · rw [← find_isSome_iff, hfind]
      rfl
    · exact startsWithStr_self pfx
  have hval := hroot pfx hkmem
  rw [hfind] at hval
  simpa using hval

/-- Witness for C9 at the one-file map `{com.a.X ↦ []}` with prefix
`com.a`. -/
theorem synthetic_root_entry_witness :
    find [("com.a", ["com.a.X"]), ("com.a.X", [])] "com.a"
      = some ((([("com.a.X", ([] : List String))]).map (fun e => e.1)).filter
          (fun k => startsWithStr k "com.a")) :=
  synthetic_root_entry [("com.a.X", [])] "com.a" none
    [("com.a", ["com.a.X"]), ("com.a.X", [])] (by decide)

/-- C10: the `tree.get_mut(&package_name).unwrap()` inside the
reference-appending loop never panics — the expansion body inserts the
identity's entry before the loop over its references runs — and
consequently `build_dependency_tree` always returns a map. -/
theorem tree_get_mut_never_panics :
    (∀ (m : ImportMap) (maxD fuel : Nat) (stack : List (String × Nat))
      (visited : List String) (t : ImportMap),
      (buildLoopF m maxD fuel stack visited t).isPanic = false) ∧
    (∀ (m : ImportMap) (pfx : Option String) (depth : Option Nat),
      (build_dependency_tree m pfx depth).isSome = true) := by
  refine ⟨fun m maxD fuel => buildLoopF_ne_panic m maxD fuel, ?_⟩
  intro m pfx depth
  obtain ⟨t, heq, -⟩ := build_dependency_tree_spec m pfx depth
  rw [heq]
  rfl

/-- C6: over a directory tree with no duplicate module identities
among the scanned files, the sequential and the parallel scanner
agree: either both panic, or both produce Import Maps with identical
key sets and identical per-key reference lists (pointwise equal
lookups). -/
theorem scan_modes_agree (fs : FSTree)
    (hnod : ((pkgsOf fs).map Prod.fst).Nodup) (k : String) :
    (traverse_folder fs).map (fun m => find m k)
      = (traverse_folder_par fs).map (fun m => find m k) := by
  rcases hok : scanOk fs with _ | _
  · rw [traverse_folder_none fs hok]
    have hp := par_isSome fs
    rw [hok] at hp
    rcases hpar : traverse_folder_par fs with _ | mp
    · rfl
    · rw [hpar] at hp
      simp at hp
  · obtain ⟨ms, hms, hmsperm⟩ := traverse_folder_perm fs hok hnod
    obtain ⟨mp, hmp, hmpperm⟩ := par_perm fs hok hnod
    rw [hms, hmp]
    show some (find ms k) = some (find mp k)
    congr 1
    have hmsnod : (mapKeys ms).Nodup :=
      ((hmsperm.map Prod.fst).nodup_iff).mpr hnod
    have hpfnod : (mapKeys (pkgsOf fs)).Nodup := hnod
    rw [find_perm hmsnod hmsperm k, find_perm hpfnod hmpperm.symm k]

/-- Witness for C6 at a two-file directory. -/
theorem scan_modes_agree_witness :
    ((pkgsOf (FSTree.dir true (FSEntries.cons true true
        (FSTree.file (some "java") true (some "a") ["b"])
        (FSEntries.cons true true
          (FSTree.file (some "java") true (some "b") [])
          FSEntries.nil)))).map Prod.fst).Nodup ∧
    (traverse_folder (FSTree.dir true (FSEntries.cons true true
        (FSTree.file (some "java") true (some "a") ["b"])
        (FSEntries.cons true true
          (FSTree.file (some "java") true (some "b") [])
          FSEntries.nil)))).map (fun m => find m "a")
      = (traverse_folder_par (FSTree.dir true (FSEntries.cons true true
        (FSTree.file (some "java") true (some "a") ["b"])
        (FSEntries.cons true true
          (FSTree.file (some "java") true (some "b") [])
          FSEntries.nil)))).map (fun m => find m "a") :=
  ⟨by decide, scan_modes_agree _ (by decide) "a"⟩

/-- C7 counterexample: a directory containing one entry whose metadata
cannot be read.  Contrary to the claim that unreadable entries are
skipped and no scan-time error is fatal, both scanners hit the
`fs::metadata(..).unwrap()` panic and no Import Map is produced. -/
theorem scanner_metadata_failure_fatal :
    traverse_folder (FSTree.dir true (FSEntries.cons true false
      (FSTree.file (some "java") true (some "a") []) FSEntries.nil))
      = none ∧
    traverse_folder_par (FSTree.dir true (FSEntries.cons true false
      (FSTree.file (some "java") true (some "a") []) FSEntries.nil))
      = none := by
  decide

/-- C7 (amended): a scan completes with an Import Map exactly when
every visited entry's metadata is readable.  Unreadable directories,
failed dirent reads, files failing the extension filter and unreadable
file contents are all skipped without aborting — concretely, a tree
with an unreadable file and an unreadable subdirectory still completes
— but an entry whose metadata cannot be read aborts the scan with a
panic. -/
theorem scanner_error_policy :
    (∀ fs : FSTree, ((traverse_folder fs).isSome = scanOk fs) ∧
      ((traverse_folder_par fs).isSome = scanOk fs)) ∧
    (traverse_folder (FSTree.dir true (FSEntries.cons true true
      (FSTree.file (some "java") false (some "x") [])
      (FSEntries.cons true true (FSTree.dir false FSEntries.nil)
        FSEntries.nil))) = some []) := by
  refine ⟨?_, by decide⟩
  intro fs
  refine ⟨?_, par_isSome fs⟩
  rcases hok : scanOk fs with _ | _
  · rw [traverse_folder_none fs hok]
    rfl
  · exact traverse_folder_some fs hok

/-! ## The escaping claim -/

theorem escChar_spec (c : Char) :
    replSlash (replQuote c) ≠ '"' ∧ replSlash (replQuote c) ≠ '/' := by
  by_cases h1 : c = '"'
  · subst h1
    decide
  · by_cases h2 : c = '/'
    · subst h2
      decide
    · simp [replQuote, replSlash, h1, h2]

theorem escChar_idem (c : Char) :
    replSlash (replQuote (replSlash (replQuote c)))
      = replSlash (replQuote c) := by
  by_cases h1 : c = '"'
  · subst h1
    decide
  · by_cases h2 : c = '/'
    · subst h2
      decide
    · simp [replQuote, replSlash, h1, h2]

theorem escapeToken_no_special (s : String) :
    ∀ c ∈ (escapeToken s).data, c ≠ '"' ∧ c ≠ '/' := by
  intro c hc
  have hc' : c ∈ (s.data.map replQuote).map replSlash := hc
  obtain ⟨x, hx, rfl⟩ := List.mem_map.mp hc'
  obtain ⟨y, _, rfl⟩ := List.mem_map.mp hx
  exact escChar_spec y

theorem escapeToken_idem (s : String) :
    escapeToken (escapeToken s) = escapeToken s := by
  unfold escapeToken
  congr 1
  show ((((s.data.map replQuote).map replSlash).map replQuote).map replSlash)
    = (s.data.map replQuote).map replSlash
  rw [List.map_map, List.map_map, List.map_map, List.map_map]
  exact List.map_congr_left (fun x _ => escChar_idem x)

theorem takeWhile_until_quote : ∀ (l tail : List Char),
    (∀ c ∈ l, c ≠ '"') →
    (l ++ '"' :: tail).takeWhile (fun c => c ≠ '"') = l
  | [], _, _ => rfl
  | c :: l, tail, h => by
    have hc : (c ≠ '"') := h c (List.mem_cons_self _ _)
    have hrec := takeWhile_until_quote l tail
      (fun x hx => h x (List.mem_cons_of_mem _ hx))
    simp only [List.cons_append, List.takeWhile_cons, decide_eq_true hc,
      if_true, hrec]

theorem recover_aux (esc tail : List Char) (hesc : ∀ c ∈ esc, c ≠ '"') :
    ((((' ' :: ' ' :: '"' :: (esc ++ '"' :: tail)).dropWhile
      (fun c => c ≠ '"')).drop 1).takeWhile (fun c => c ≠ '"')) = esc := by
  show (esc ++ '"' :: tail).takeWhile (fun c => c ≠ '"') = esc
  exact takeWhile_until_quote esc tail hesc

theorem recover_roundtrip (a b : String) :
    recoverToken (edgeLine a b) = escapeToken a := by
  have hdata : (edgeLine a b).data
      = ' ' :: ' ' :: '"' :: ((escapeToken a).data
        ++ '"' :: (' ' :: '-' :: '>' :: ' ' :: '"' :: ((escapeToken b).data
          ++ ['"', ';', '\n']))) := by
    show ("  \"" ++ escapeToken a ++ "\" -> \"" ++ escapeToken b
      ++ "\";\n").data = _
    rw [String.data_append, String.data_append, String.data_append,
      String.data_append]
    rw [show "  \"".data = [' ', ' ', '"'] from rfl,
      show "\" -> \"".data = ['"', ' ', '-', '>', ' ', '"'] from rfl,
      show "\";\n".data = ['"', ';', '\n'] from rfl]
    simp
  unfold recoverToken
  rw [hdata, recover_aux _ _ (fun c hc => (escapeToken_no_special a c hc).1)]

/-- C8: the serializer's token escaping replaces every embedded
double-quote with an apostrophe and every path-separator with an
underscore — it is exactly the character map `replSlash ∘ replQuote`,
so its output contains neither character — it is idempotent, and the
token recovered from an emitted edge line equals the escaped form
exactly. -/
theorem escaping_idempotent :
    (∀ s : String, escapeToken s
      = String.mk (s.data.map (fun c => replSlash (replQuote c)))) ∧
    (∀ s : String, escapeToken (escapeToken s) = escapeToken s) ∧
    (∀ s : String, ∀ c ∈ (escapeToken s).data, c ≠ '"' ∧ c ≠ '/') ∧
    (∀ a b : String, recoverToken (edgeLine a b) = escapeToken a) := by
  refine ⟨?_, escapeToken_idem, escapeToken_no_special, recover_roundtrip⟩
  intro s
  unfold escapeToken
  congr 1
  rw [List.map_map]
  rfl

/-- Witness for C8 at a token containing a quote and a separator. -/
theorem escaping_idempotent_witness :
    escapeToken (escapeToken "a\"b/c") = escapeToken "a\"b/c" ∧
    ('_' ≠ '"' ∧ '_' ≠ '/') ∧
    recoverToken (edgeLine "a\"b/c" "x") = escapeToken "a\"b/c" :=
  ⟨escaping_idempotent.2.1 "a\"b/c",
    escaping_idempotent.2.2.1 "a\"b/c" '_' (by decide),
    escaping_idempotent.2.2.2 "a\"b/c" "x"⟩

end Jadep
